import Mathlib

/-!
Verification of the quality-tactic base classes of the Retail Management
System (`src/tactics/base.py`): the circuit breaker, the priority queue
and the retry mechanism.  Time is modelled as `Nat` (seconds since an
arbitrary epoch); every method that reads the wall clock in Python takes
the current time as an explicit argument.  Fractional retry parameters
(`delay`, `backoff_factor`) are modelled as rationals.
-/

namespace RMS

/-- States of `CircuitBreakerState` in `src/tactics/base.py`
(`CLOSED`, `OPEN`, `HALF_OPEN`).  `open` is a Lean keyword, hence `open_`. -/
inductive CircuitBreakerState where
  | closed
  | open_
  | half_open
deriving DecidableEq

/-- The mutable attributes of `BaseCircuitBreaker` as set by `__init__`
(`src/tactics/base.py:60-68`).  `failure_threshold` and `timeout_duration`
come from the config dict (defaults 5 and 60); `last_failure_time` and
`next_attempt_time` start as `None`, modelled by `Option Nat`. -/
structure BaseCircuitBreaker where
  service_name : String
  failure_threshold : Nat
  timeout_duration : Nat
  state : CircuitBreakerState
  failure_count : Nat
  last_failure_time : Option Nat
  next_attempt_time : Option Nat
deriving DecidableEq

/-- `BaseCircuitBreaker.__init__` (`src/tactics/base.py:60-68`): state starts
`CLOSED`, counter 0, both timestamps `None`. -/
def initBreaker (service_name : String) (failure_threshold timeout_duration : Nat) :
    BaseCircuitBreaker :=
  { service_name := service_name
    failure_threshold := failure_threshold
    timeout_duration := timeout_duration
    state := .closed
    failure_count := 0
    last_failure_time := none
    next_attempt_time := none }

/-- `BaseCircuitBreaker.can_execute` (`src/tactics/base.py:70-81`).
Returns the boolean result together with the (possibly mutated) breaker:
in `OPEN`, when `next_attempt_time` is set (`None` is falsy in Python) and
`now >= next_attempt_time`, the call flips the state to `HALF_OPEN` and
returns `True`; otherwise `False` with no mutation. -/
def can_execute (self : BaseCircuitBreaker) (now : Nat) :
    Bool × BaseCircuitBreaker :=
  match self.state with
  | .closed => (true, self)
  | .open_ =>
    match self.next_attempt_time with
    | some t => if t ≤ now then (true, { self with state := .half_open }) else (false, self)
    | none => (false, self)
  | .half_open => (true, self)

/-- `BaseCircuitBreaker.record_success` (`src/tactics/base.py:83-87`):
resets `failure_count` to 0 and forces the state to `CLOSED`. -/
def record_success (self : BaseCircuitBreaker) : BaseCircuitBreaker :=
  { self with failure_count := 0, state := .closed }

/-- `BaseCircuitBreaker.record_failure` (`src/tactics/base.py:89-98`):
increments `failure_count`, stamps `last_failure_time = now`, and when the
new count reaches `failure_threshold` sets the state to `OPEN` and
`next_attempt_time = now + timeout_duration`. -/
def record_failure (self : BaseCircuitBreaker) (now : Nat) : BaseCircuitBreaker :=
  let self := { self with
                failure_count := self.failure_count + 1
                last_failure_time := some now }
  if self.failure_threshold ≤ self.failure_count then
    { self with
      state := .open_
      next_attempt_time := some (now + self.timeout_duration) }
  else
    self

/-- A sequence of consecutive `record_failure` calls at the given times. -/
def recFailures (b : BaseCircuitBreaker) (times : List Nat) : BaseCircuitBreaker :=
  times.foldl record_failure b

/-- The times of the first `j` calls in a failure schedule `f`
(`f i` is the clock reading at the `i`-th call). -/
def failTimes (f : Nat → Nat) (j : Nat) : List Nat :=
  (List.range j).map f

/-- One public call on a circuit breaker, for reachability statements. -/
inductive BreakerOp where
  | canExec (now : Nat)
  | recSuccess
  | recFailure (now : Nat)

/-- Apply one public call (discarding the boolean result of `can_execute`). -/
def stepBreaker (b : BaseCircuitBreaker) : BreakerOp → BaseCircuitBreaker
  | .canExec now => (can_execute b now).2
  | .recSuccess => record_success b
  | .recFailure now => record_failure b now

/-- The breaker obtained from `b` by a sequence of public calls. -/
def runBreaker (b : BaseCircuitBreaker) (ops : List BreakerOp) : BaseCircuitBreaker :=
  ops.foldl stepBreaker b

/-- Invariant of every reachable breaker: while `OPEN`, the deadline
`next_attempt_time` is set and the failure counter has reached the
threshold. -/
def BreakerInv (b : BaseCircuitBreaker) : Prop :=
  b.state = .open_ →
    b.next_attempt_time ≠ none ∧ b.failure_threshold ≤ b.failure_count

end RMS

namespace RMS

/-- One element of `BaseQueue.items`: the dict
with keys `item`, `priority` and `timestamp` built by
`enqueue` (`src/tactics/base.py:122-126`). -/
structure QEntry (α : Type) where
  item : α
  priority : Int
  timestamp : Nat
deriving DecidableEq

/-- The attributes of `BaseQueue` set by `__init__`
(`src/tactics/base.py:109-113`). -/
structure BaseQueue (α : Type) where
  queue_name : String
  max_size : Nat
  items : List (QEntry α)
deriving DecidableEq

/-- `BaseQueue.__init__`: the queue starts empty. -/
def initQueue (α : Type) (queue_name : String) (max_size : Nat) : BaseQueue α :=
  { queue_name := queue_name, max_size := max_size, items := [] }

/-- Stable insertion of an entry into a priority-descending list: the new
entry goes before the first element whose priority is `≤` its own.
Auxiliary for `sortDesc` below. -/
def insertDesc {α : Type} (e : QEntry α) : List (QEntry α) → List (QEntry α)
  | [] => [e]
  | x :: xs =>
    if x.priority ≤ e.priority then e :: x :: xs else x :: insertDesc e xs

/-- The Python call `list.sort` with the priority key and `reverse=True`
(`src/tactics/base.py:127`) is a *stable* sort by priority descending
(the CPython sort is stable, and `reverse=True` keeps equal elements in
their original order).  The stable sorted permutation is unique, so it is
modelled by stable insertion sort with the same key and direction. -/
def sortDesc {α : Type} : List (QEntry α) → List (QEntry α)
  | [] => []
  | x :: xs => insertDesc x (sortDesc xs)

/-- `BaseQueue.enqueue` (`src/tactics/base.py:115-128`): reject (returning
`False`, queue untouched) when `len(items) >= max_size`; otherwise append
the new item/priority/timestamp dict and re-sort by priority
descending, returning `True`. -/
def enqueue {α : Type} (self : BaseQueue α) (item : α) (priority : Int) (now : Nat) :
    Bool × BaseQueue α :=
  if self.max_size ≤ self.items.length then
    (false, self)
  else
    (true, { self with items := sortDesc (self.items ++ [⟨item, priority, now⟩]) })

/-- `BaseQueue.dequeue` (`src/tactics/base.py:130-134`): pop the head item
(`items.pop(0)`, taking its `item` field), or `None` on an empty queue. -/
def dequeue {α : Type} (self : BaseQueue α) : Option α × BaseQueue α :=
  match self.items with
  | [] => (none, self)
  | x :: xs => (some x.item, { self with items := xs })

/-- Run a sequence of `enqueue` calls, one clock tick apart (the Python
code stamps each with `datetime.now`, which is strictly increasing across
calls at second granularity in these scenarios). -/
def runEnqueues {α : Type} : BaseQueue α → Nat → List (α × Int) → BaseQueue α
  | q, _, [] => q
  | q, now, (a, p) :: rest => runEnqueues (enqueue q a p now).2 (now + 1) rest

/-- The results of `n` successive `dequeue` calls (stopping early on an
empty queue). -/
def dequeueN {α : Type} : BaseQueue α → Nat → List α
  | _, 0 => []
  | q, n + 1 =>
    match dequeue q with
    | (none, _) => []
    | (some a, q2) => a :: dequeueN q2 n

/-- The entries a sequence of admitted enqueues would add, with their
timestamps. -/
def opEntries {α : Type} : Nat → List (α × Int) → List (QEntry α)
  | _, [] => []
  | now, (a, p) :: rest => ⟨a, p, now⟩ :: opEntries (now + 1) rest

/-- Dequeue order required of the queue: priority strictly descending, or
equal priority with enqueue timestamp ascending (FIFO on ties). -/
def entOrder {α : Type} (a b : QEntry α) : Prop :=
  b.priority < a.priority ∨ (a.priority = b.priority ∧ a.timestamp < b.timestamp)

/-- Priority-descending comparison used by the sort. -/
def prioGE {α : Type} (a b : QEntry α) : Prop :=
  b.priority ≤ a.priority

/-- Equal-priority entries carry strictly increasing timestamps in list
order (the stability part of the queue invariant). -/
def tieFIFO {α : Type} (a b : QEntry α) : Prop :=
  a.priority = b.priority → a.timestamp < b.timestamp

/-- Invariant of a queue at current clock `now`: items sorted by priority
descending, FIFO among equal priorities, all timestamps in the past. -/
def QInv {α : Type} (q : BaseQueue α) (now : Nat) : Prop :=
  q.items.Pairwise prioGE ∧ q.items.Pairwise tieFIFO ∧
    ∀ e ∈ q.items, e.timestamp < now

end RMS

namespace RMS

/-- The attributes of `BaseRetry` set by `__init__`
(`src/tactics/base.py:271-275`), from the config dict (defaults 3, 1.0,
2.0).  The float parameters are modelled as rationals. -/
structure BaseRetry where
  max_attempts : Nat
  delay : ℚ
  backoff_factor : ℚ
deriving DecidableEq

/-- Outcome of `execute_with_retry`: a returned value, a propagated
exception from the operation, or the faulty `raise None` that Python would
perform if the loop body never ran (`raise last_exception` with
`last_exception is None`, a `TypeError`). -/
inductive RetryResult (E A : Type) where
  | ok (a : A)
  | err (e : E)
  | raiseNone
deriving DecidableEq

/-- The retry loop `for attempt in range(self.max_attempts)` of
`BaseRetry.execute_with_retry` (`src/tactics/base.py:277-293`), its
iteration domain made explicit as the list of remaining attempt indices.
The operation `op` maps an attempt index to an `Except` outcome.  The
returned triple is (result, number of invocations of `op`, list of sleep
durations performed by `time.sleep`).  A success returns immediately; a
failure stores the exception and, when `attempt < max_attempts - 1`,
sleeps `delay * backoff_factor ** attempt` before the next iteration;
after the loop the last stored exception is re-raised. -/
def retryAux {E A : Type} (op : Nat → Except E A) (max_attempts : Nat)
    (delay backoff_factor : ℚ) :
    List Nat → Option E → RetryResult E A × Nat × List ℚ
  | [], last =>
    (match last with
     | some e => .err e
     | none => .raiseNone, 0, [])
  | attempt :: rest, _ =>
    match op attempt with
    | .ok a => (.ok a, 1, [])
    | .error e =>
      let r := retryAux op max_attempts delay backoff_factor rest (some e)
      if attempt < max_attempts - 1 then
        (r.1, r.2.1 + 1, delay * backoff_factor ^ attempt :: r.2.2)
      else
        (r.1, r.2.1 + 1, r.2.2)

/-- `BaseRetry.execute_with_retry` (`src/tactics/base.py:277-293`):
run the loop over `range(max_attempts)` with `last_exception = None`. -/
def execute_with_retry {E A : Type} (self : BaseRetry) (op : Nat → Except E A) :
    RetryResult E A × Nat × List ℚ :=
  retryAux op self.max_attempts self.delay self.backoff_factor
    (List.range self.max_attempts) none

/-- `BaseRetry.validate_config` (`src/tactics/base.py:295-299`):
`max_attempts > 0 and delay > 0 and backoff_factor > 0`. -/
def validate_config (self : BaseRetry) : Bool :=
  decide (0 < self.max_attempts) && decide (0 < self.delay) &&
    decide (0 < self.backoff_factor)

end RMS

/-! ## Concrete instances used by witnesses -/

namespace RMS

/-- A breaker tripped open by one failure (threshold 1, timeout 10) at
time 0: `next_attempt_time = 10`. -/
def c2breaker : BaseCircuitBreaker := record_failure (initBreaker "payment" 1 10) 0

/-- A breaker sitting `Open` with deadline 10. -/
def c4breaker : BaseCircuitBreaker :=
  { service_name := "svc", failure_threshold := 1, timeout_duration := 10,
    state := .open_, failure_count := 1,
    last_failure_time := some 0, next_attempt_time := some 10 }

/-- A tripped breaker (threshold 3, already `Open`, count 5). -/
def c6breaker : BaseCircuitBreaker :=
  { service_name := "svc", failure_threshold := 3, timeout_duration := 60,
    state := .open_, failure_count := 5,
    last_failure_time := some 4, next_attempt_time := some 64 }

/-- A corrupt breaker: `Open` but with no deadline set (not reachable). -/
def c8breaker : BaseCircuitBreaker :=
  { service_name := "svc", failure_threshold := 1, timeout_duration := 10,
    state := .open_, failure_count := 1,
    last_failure_time := none, next_attempt_time := none }

/-- A queue at capacity: `max_size = 2` holding two items. -/
def c7queue : BaseQueue Nat :=
  { queue_name := "orders", max_size := 2,
    items := [⟨1, 5, 0⟩, ⟨2, 4, 1⟩] }

/-- Retry config for the C5 witness: 3 attempts, delay 1, backoff 2. -/
def c5retry : BaseRetry := { max_attempts := 3, delay := 1, backoff_factor := 2 }

/-- Operation for the C5 witness: fails on attempts 0 and 1 (exceptions
0 and 1), succeeds with 42 on attempt 2. -/
def c5op : Nat → Except Nat Nat :=
  fun i => if i < 2 then .error i else .ok 42

/-- Retry config for the C10 witness: 2 attempts, valid configuration. -/
def c10retry : BaseRetry := { max_attempts := 2, delay := 1, backoff_factor := 2 }

/-- Operation for the C10 witness: every attempt fails. -/
def c10op : Nat → Except Nat Nat := fun i => .error i

end RMS

/-! ## Circuit breaker lemmas -/

namespace RMS

theorem record_failure_trip (b : BaseCircuitBreaker) (t : Nat)
    (h : b.failure_threshold ≤ b.failure_count + 1) :
    record_failure b t =
      { b with failure_count := b.failure_count + 1
               last_failure_time := some t
               state := .open_
               next_attempt_time := some (t + b.timeout_duration) } := by
  simp [record_failure, h]

theorem record_failure_below (b : BaseCircuitBreaker) (t : Nat)
    (h : ¬ b.failure_threshold ≤ b.failure_count + 1) :
    record_failure b t =
      { b with failure_count := b.failure_count + 1
               last_failure_time := some t } := by
  simp [record_failure, h]

theorem recFailures_closed (ts : List Nat) (b : BaseCircuitBreaker)
    (hb : b.state = .closed)
    (hlt : b.failure_count + ts.length < b.failure_threshold) :
    (recFailures b ts).state = .closed ∧
    (recFailures b ts).failure_count = b.failure_count + ts.length ∧
    (recFailures b ts).failure_threshold = b.failure_threshold ∧
    (recFailures b ts).timeout_duration = b.timeout_duration ∧
    (recFailures b ts).next_attempt_time = b.next_attempt_time := by
  induction ts generalizing b with
  | nil => exact ⟨hb, rfl, rfl, rfl, rfl⟩
  | cons t ts ih =>
    simp only [List.length_cons] at hlt
    have hcond : ¬ b.failure_threshold ≤ b.failure_count + 1 := by omega
    have hrf := record_failure_below b t hcond
    have hrec : recFailures b (t :: ts) = recFailures (record_failure b t) ts := rfl
    have := ih (record_failure b t) (by rw [hrf]; exact hb) (by rw [hrf]; simp; omega)
    rw [hrec]
    refine ⟨this.1, ?_, ?_, ?_, ?_⟩
    · rw [this.2.1, hrf]; simp; omega
    · rw [this.2.2.1, hrf]
    · rw [this.2.2.2.1, hrf]
    · rw [this.2.2.2.2, hrf]

theorem canExecOpenCases (b : BaseCircuitBreaker) (t now : Nat)
    (hs : b.state = .open_) (hn : b.next_attempt_time = some t) :
    (now < t → can_execute b now = (false, b)) ∧
    (t ≤ now → can_execute b now = (true, { b with state := .half_open })) := by
  constructor <;> intro h
  · simp [can_execute, hs, hn, Nat.not_le.mpr h]
  · simp [can_execute, hs, hn, h]

theorem stepBreaker_inv (b : BaseCircuitBreaker) (op : BreakerOp)
    (h : BreakerInv b) : BreakerInv (stepBreaker b op) := by
  cases op with
  | canExec now =>
    show BreakerInv (can_execute b now).2
    unfold can_execute
    cases hs : b.state with
    | closed => exact h
    | open_ =>
      cases hn : b.next_attempt_time with
      | none => exact h
      | some t =>
        by_cases hle : t ≤ now
        · simp only [hle, if_pos]
          intro hcontra
          exact absurd hcontra (by simp)
        · simp only [hle, if_neg, not_false_iff]
          exact h
    | half_open => exact h
  | recSuccess =>
    show BreakerInv (record_success b)
    intro hcontra
    exact absurd hcontra (by simp [record_success])
  | recFailure now =>
    show BreakerInv (record_failure b now)
    by_cases hth : b.failure_threshold ≤ b.failure_count + 1
    · rw [record_failure_trip b now hth]
      intro _
      exact ⟨by simp, by simpa using hth⟩
    · rw [record_failure_below b now hth]
      intro hopen
      have := h (by simpa using hopen)
      exact absurd this.2 (by omega)

theorem runBreaker_inv (ops : List BreakerOp) (b : BaseCircuitBreaker)
    (h : BreakerInv b) : BreakerInv (runBreaker b ops) := by
  induction ops generalizing b with
  | nil => exact h
  | cons op ops ih => exact ih (stepBreaker b op) (stepBreaker_inv b op h)

end RMS

/-! ## Circuit breaker claims -/

namespace RMS

/-- C1: a breaker built with `failure_threshold = k ≥ 1` and positive
`timeout_duration`, starting `Closed` with `failure_count = 0`, is still
`Closed` after any `j < k` consecutive `record_failure` calls, is `Open`
after exactly `k` of them with `next_attempt_time = last failure time +
timeout_duration`, and a `can_execute` at a time strictly before that
deadline returns `false` without mutating the breaker. -/
theorem breaker_trips_at_threshold (service : String) (k timeout : Nat)
    (f : Nat → Nat) (now : Nat) (hk : 1 ≤ k) (ht : 1 ≤ timeout)
    (hnow : now < f (k - 1) + timeout) :
    (∀ j, j < k →
      (recFailures (initBreaker service k timeout) (failTimes f j)).state = .closed) ∧
    (recFailures (initBreaker service k timeout) (failTimes f k)).state = .open_ ∧
    (recFailures (initBreaker service k timeout) (failTimes f k)).next_attempt_time =
      some (f (k - 1) + timeout) ∧
    can_execute (recFailures (initBreaker service k timeout) (failTimes f k)) now =
      (false, recFailures (initBreaker service k timeout) (failTimes f k)) := by
  have hlen : ∀ j, (failTimes f j).length = j := by
    intro j; simp [failTimes]
  have hclosed : ∀ j, j < k →
      (recFailures (initBreaker service k timeout) (failTimes f j)).state = .closed ∧
      (recFailures (initBreaker service k timeout) (failTimes f j)).failure_count = 0 + j ∧
      (recFailures (initBreaker service k timeout) (failTimes f j)).failure_threshold = k ∧
      (recFailures (initBreaker service k timeout) (failTimes f j)).timeout_duration = timeout ∧
      (recFailures (initBreaker service k timeout) (failTimes f j)).next_attempt_time = none := by
    intro j hj
    have := recFailures_closed (failTimes f j) (initBreaker service k timeout) rfl
      (by rw [hlen]; simpa [initBreaker] using hj)
    simpa [initBreaker, hlen] using this
  have hsplit : failTimes f k = failTimes f (k - 1) ++ [f (k - 1)] := by
    unfold failTimes
    conv_lhs => rw [show k = (k - 1) + 1 by omega]
    rw [List.range_succ, List.map_append]
    rfl
  have hmid := hclosed (k - 1) (by omega)
  have hfold : recFailures (initBreaker service k timeout) (failTimes f k) =
      record_failure (recFailures (initBreaker service k timeout) (failTimes f (k - 1)))
        (f (k - 1)) := by
    rw [hsplit]
    simp [recFailures, List.foldl_append]
  have htrip := record_failure_trip
    (recFailures (initBreaker service k timeout) (failTimes f (k - 1))) (f (k - 1))
    (by rw [hmid.2.2.1, hmid.2.1]; omega)
  have hstate : (recFailures (initBreaker service k timeout) (failTimes f k)).state = .open_ := by
    rw [hfold, htrip]
  have hnext : (recFailures (initBreaker service k timeout) (failTimes f k)).next_attempt_time =
      some (f (k - 1) + timeout) := by
    rw [hfold, htrip]
    simp [hmid.2.2.2.1]
  refine ⟨fun j hj => (hclosed j hj).1, hstate, hnext, ?_⟩
  exact (canExecOpenCases _ (f (k - 1) + timeout) now hstate hnext).1 hnow

/-- Witness for C1: threshold 3, timeout 10, failures at times 0,1,2,
admission check at time 11 (before the deadline 12). -/
theorem breaker_trips_at_threshold_witness :
    (recFailures (initBreaker "svc" 3 10) (failTimes (fun i => i) 3)).state = .open_ ∧
    can_execute (recFailures (initBreaker "svc" 3 10) (failTimes (fun i => i) 3)) 11 =
      (false, recFailures (initBreaker "svc" 3 10) (failTimes (fun i => i) 3)) := by
  have h := breaker_trips_at_threshold "svc" 3 10 (fun i => i) 11
    (by decide) (by decide) (by decide)
  exact ⟨h.2.1, h.2.2.2⟩


/-- C2 counterexample: the breaker is `Open` with deadline 10, yet a
further `record_failure` at time 5 recomputes `next_attempt_time` to 15:
the guard `failure_count >= failure_threshold` fires again on every
failure recorded while `Open`, so the deadline is NOT left unchanged. -/
theorem open_failure_keeps_deadline_cex :
    c2breaker.state = .open_ ∧
    c2breaker.next_attempt_time = some 10 ∧
    (record_failure c2breaker 5).next_attempt_time = some 15 ∧
    (record_failure c2breaker 5).next_attempt_time ≠ c2breaker.next_attempt_time := by
  decide

/-- C2 amended: for every reachable breaker in the `Open` state, a further
`record_failure` at time `now` *recomputes* `next_attempt_time` to
`now + timeout_duration` (and keeps the state `Open`): the threshold guard
is still satisfied, so repeated failures recorded while `Open` do postpone
the recovery probe time. -/
theorem open_failure_recomputes_deadline (service : String) (k timeout : Nat)
    (ops : List BreakerOp) (now : Nat)
    (hopen : (runBreaker (initBreaker service k timeout) ops).state = .open_) :
    (record_failure (runBreaker (initBreaker service k timeout) ops) now).next_attempt_time =
      some (now + (runBreaker (initBreaker service k timeout) ops).timeout_duration) ∧
    (record_failure (runBreaker (initBreaker service k timeout) ops) now).state = .open_ := by
  have hinv := runBreaker_inv ops (initBreaker service k timeout) (by intro h; cases h)
  have hth := (hinv hopen).2
  have := record_failure_trip (runBreaker (initBreaker service k timeout) ops) now (by omega)
  rw [this]
  exact ⟨rfl, rfl⟩

/-- Witness for C2 amended: threshold 1, timeout 10, tripped at time 0;
a failure at time 5 moves the deadline to 15. -/
theorem open_failure_recomputes_deadline_witness :
    (record_failure (runBreaker (initBreaker "payment" 1 10) [.recFailure 0]) 5).next_attempt_time =
      some (5 + (runBreaker (initBreaker "payment" 1 10) [.recFailure 0]).timeout_duration) ∧
    (record_failure (runBreaker (initBreaker "payment" 1 10) [.recFailure 0]) 5).state = .open_ :=
  open_failure_recomputes_deadline "payment" 1 10 [.recFailure 0] 5 (by decide)

end RMS

namespace RMS

/-- C4: for a breaker in `Open` with `next_attempt_time = t`, `can_execute`
at a time strictly before `t` returns `false` and leaves the breaker
unchanged (still `Open`); the first call at or after `t` returns `true`
and, as a side effect of the same call, mutates the state to `HalfOpen`
(the transition is performed lazily by the admission check). -/
theorem can_execute_open_boundary (b : BaseCircuitBreaker) (t now : Nat)
    (hs : b.state = .open_) (hn : b.next_attempt_time = some t) :
    (now < t → can_execute b now = (false, b)) ∧
    (t ≤ now → can_execute b now = (true, { b with state := .half_open })) :=
  canExecOpenCases b t now hs hn


/-- Witness for C4: checks at times 5 (refused, unchanged) and 12
(admitted, flipped to `HalfOpen`). -/
theorem can_execute_open_boundary_witness :
    can_execute c4breaker 5 = (false, c4breaker) ∧
    can_execute c4breaker 12 = (true, { c4breaker with state := .half_open }) :=
  ⟨(can_execute_open_boundary c4breaker 10 5 rfl rfl).1 (by decide),
   (can_execute_open_boundary c4breaker 10 12 rfl rfl).2 (by decide)⟩

/-- C6: `record_success` resets `failure_count` to 0 and forces the state
to `Closed` from any state; consequently, any subsequent run of fewer than
`failure_threshold` consecutive failures leaves the breaker `Closed` (the
counter was truly reset, not decremented). -/
theorem record_success_resets (b : BaseCircuitBreaker) (ts : List Nat)
    (hts : ts.length < b.failure_threshold) :
    (record_success b).failure_count = 0 ∧
    (record_success b).state = .closed ∧
    (recFailures (record_success b) ts).state = .closed := by
  refine ⟨rfl, rfl, ?_⟩
  exact (recFailures_closed ts (record_success b) rfl (by simpa [record_success] using hts)).1


/-- Witness for C6: after a success, `k - 1 = 2` further failures do not
trip the threshold-3 breaker. -/
theorem record_success_resets_witness :
    (record_success c6breaker).failure_count = 0 ∧
    (record_success c6breaker).state = .closed ∧
    (recFailures (record_success c6breaker) [10, 11]).state = .closed :=
  record_success_resets c6breaker [10, 11] (by decide)

/-- C8: in every breaker reachable from a fresh instance by public calls,
`Open` implies `next_attempt_time` is set; and independently, if
`next_attempt_time` were `None` while `Open`, `can_execute` would return
`false` (no deadline consulted) rather than fault. -/
theorem open_implies_deadline_set (service : String) (k timeout : Nat)
    (ops : List BreakerOp) :
    ((runBreaker (initBreaker service k timeout) ops).state = .open_ →
      (runBreaker (initBreaker service k timeout) ops).next_attempt_time ≠ none) ∧
    (∀ b : BaseCircuitBreaker, ∀ now : Nat,
      b.state = .open_ → b.next_attempt_time = none →
      can_execute b now = (false, b)) := by
  constructor
  · intro hopen
    exact (runBreaker_inv ops (initBreaker service k timeout) (by intro h; cases h) hopen).1
  · intro b now hs hn
    simp [can_execute, hs, hn]


/-- Witness for C8: a freshly constructed breaker tripped by one failure
has its deadline set, and the unreachable `Open`-without-deadline breaker
is refused without faulting. -/
theorem open_implies_deadline_set_witness :
    (runBreaker (initBreaker "svc" 1 10) [.recFailure 0]).next_attempt_time ≠ none ∧
    can_execute c8breaker 99 = (false, c8breaker) :=
  ⟨(open_implies_deadline_set "svc" 1 10 [.recFailure 0]).1 (by decide),
   (open_implies_deadline_set "svc" 1 10 [.recFailure 0]).2 c8breaker 99 rfl rfl⟩

/-- C9: `record_success` modifies only `failure_count` and `state`; the
timestamps `last_failure_time` and `next_attempt_time` and the
configuration fields survive a successful probe unchanged. -/
theorem record_success_frame (b : BaseCircuitBreaker) :
    (record_success b).last_failure_time = b.last_failure_time ∧
    (record_success b).next_attempt_time = b.next_attempt_time ∧
    (record_success b).failure_threshold = b.failure_threshold ∧
    (record_success b).timeout_duration = b.timeout_duration ∧
    (record_success b).service_name = b.service_name :=
  ⟨rfl, rfl, rfl, rfl, rfl⟩

end RMS

/-! ## Queue lemmas -/

namespace RMS

theorem mem_insertDesc {α : Type} (e : QEntry α) (l : List (QEntry α)) (x : QEntry α) :
    x ∈ insertDesc e l ↔ x = e ∨ x ∈ l := by
  induction l with
  | nil => simp [insertDesc]
  | cons y ys ih =>
    simp only [insertDesc]
    split
    · simp [List.mem_cons]
    · simp [List.mem_cons, ih]
      tauto

theorem perm_insertDesc {α : Type} (e : QEntry α) (l : List (QEntry α)) :
    (insertDesc e l).Perm (e :: l) := by
  induction l with
  | nil => exact List.Perm.refl _
  | cons y ys ih =>
    simp only [insertDesc]
    split
    · exact List.Perm.refl _
    · exact (List.Perm.cons y ih).trans (List.Perm.swap e y ys)

theorem perm_sortDesc {α : Type} (l : List (QEntry α)) : (sortDesc l).Perm l := by
  induction l with
  | nil => exact List.Perm.refl _
  | cons x xs ih =>
    exact (perm_insertDesc x (sortDesc xs)).trans (List.Perm.cons x ih)

theorem pairwise_prioGE_insertDesc {α : Type} (e : QEntry α) (l : List (QEntry α))
    (h : l.Pairwise prioGE) : (insertDesc e l).Pairwise prioGE := by
  induction l with
  | nil => simp [insertDesc, prioGE]
  | cons y ys ih =>
    obtain ⟨hy, hys⟩ := List.pairwise_cons.mp h
    simp only [insertDesc]
    split
    · rename_i hc
      refine List.pairwise_cons.mpr ⟨?_, h⟩
      intro z hz
      rcases List.mem_cons.mp hz with rfl | hz
      · exact hc
      · exact le_trans (hy z hz) hc
    · rename_i hc
      refine List.pairwise_cons.mpr ⟨?_, ih hys⟩
      intro z hz
      rcases (mem_insertDesc e ys z).mp hz with rfl | hz
      · exact le_of_lt (not_le.mp hc)
      · exact hy z hz

theorem pairwise_tieFIFO_insertDesc {α : Type} (e : QEntry α) (l : List (QEntry α))
    (h : l.Pairwise tieFIFO) (he : ∀ y ∈ l, tieFIFO e y) :
    (insertDesc e l).Pairwise tieFIFO := by
  induction l with
  | nil => simp [insertDesc]
  | cons y ys ih =>
    obtain ⟨hy, hys⟩ := List.pairwise_cons.mp h
    simp only [insertDesc]
    split
    · exact List.pairwise_cons.mpr ⟨he, h⟩
    · rename_i hc
      refine List.pairwise_cons.mpr
        ⟨?_, ih hys (fun z hz => he z (List.mem_cons_of_mem y hz))⟩
      intro z hz
      rcases (mem_insertDesc e ys z).mp hz with rfl | hz
      · intro heq
        exact absurd (le_of_eq heq) hc
      · exact hy z hz

theorem pairwise_prioGE_sortDesc {α : Type} (l : List (QEntry α)) :
    (sortDesc l).Pairwise prioGE := by
  induction l with
  | nil => exact List.Pairwise.nil
  | cons x xs ih => exact pairwise_prioGE_insertDesc x (sortDesc xs) ih

theorem pairwise_tieFIFO_sortDesc {α : Type} (l : List (QEntry α))
    (h : l.Pairwise tieFIFO) : (sortDesc l).Pairwise tieFIFO := by
  induction l with
  | nil => exact List.Pairwise.nil
  | cons x xs ih =>
    obtain ⟨hx, hxs⟩ := List.pairwise_cons.mp h
    exact pairwise_tieFIFO_insertDesc x (sortDesc xs) (ih hxs)
      (fun y hy => hx y ((perm_sortDesc xs).mem_iff.mp hy))

theorem enqueue_accepts {α : Type} (q : BaseQueue α) (a : α) (p : Int) (now : Nat)
    (hlt : q.items.length < q.max_size) :
    enqueue q a p now =
      (true, { q with items := sortDesc (q.items ++ [⟨a, p, now⟩]) }) := by
  unfold enqueue
  rw [if_neg (by omega)]

theorem enqueue_inv {α : Type} (q : BaseQueue α) (a : α) (p : Int) (now : Nat)
    (h : QInv q now) : QInv (enqueue q a p now).2 (now + 1) := by
  unfold enqueue
  split
  · exact ⟨h.1, h.2.1, fun e he => Nat.lt_succ_of_lt (h.2.2 e he)⟩
  · refine ⟨pairwise_prioGE_sortDesc _, ?_, ?_⟩
    · refine pairwise_tieFIFO_sortDesc _ ?_
      refine List.pairwise_append.mpr ⟨h.2.1, List.pairwise_singleton _ _, ?_⟩
      intro x hx y hy heq
      rw [List.mem_singleton.mp hy]
      exact h.2.2 x hx
    · intro e he
      rcases List.mem_append.mp ((perm_sortDesc _).mem_iff.mp he) with he2 | he2
      · exact Nat.lt_succ_of_lt (h.2.2 e he2)
      · rw [List.mem_singleton.mp he2]
        exact Nat.lt_succ_self now

theorem runEnqueues_inv {α : Type} (ops : List (α × Int)) (q : BaseQueue α) (now : Nat)
    (h : QInv q now) : QInv (runEnqueues q now ops) (now + ops.length) := by
  induction ops generalizing q now with
  | nil => simpa [runEnqueues] using h
  | cons op rest ih =>
    obtain ⟨a, p⟩ := op
    have := ih (enqueue q a p now).2 (now + 1) (enqueue_inv q a p now h)
    show QInv (runEnqueues (enqueue q a p now).2 (now + 1) rest) _
    have harith : now + 1 + rest.length = now + (rest.length + 1) := by omega
    simpa [List.length_cons, harith] using this

theorem length_insertDesc {α : Type} (e : QEntry α) (l : List (QEntry α)) :
    (insertDesc e l).length = l.length + 1 :=
  (perm_insertDesc e l).length_eq

theorem length_sortDesc {α : Type} (l : List (QEntry α)) :
    (sortDesc l).length = l.length :=
  (perm_sortDesc l).length_eq

theorem enqueue_frame {α : Type} (q : BaseQueue α) (a : α) (p : Int) (now : Nat) :
    (enqueue q a p now).2.max_size = q.max_size ∧
    (enqueue q a p now).2.queue_name = q.queue_name := by
  unfold enqueue
  split <;> exact ⟨rfl, rfl⟩

theorem length_opEntries {α : Type} (ops : List (α × Int)) :
    ∀ now, (opEntries now ops : List (QEntry α)).length = ops.length := by
  induction ops with
  | nil => intro now; rfl
  | cons op rest ih =>
    intro now
    obtain ⟨a, p⟩ := op
    simp [opEntries, ih]

theorem runEnqueues_perm {α : Type} (ops : List (α × Int)) (q : BaseQueue α) (now : Nat)
    (hcap : q.items.length + ops.length ≤ q.max_size) :
    (runEnqueues q now ops).items.Perm (q.items ++ opEntries now ops) := by
  induction ops generalizing q now with
  | nil => simp [runEnqueues, opEntries]
  | cons op rest ih =>
    obtain ⟨a, p⟩ := op
    simp only [List.length_cons] at hcap
    have hlt : q.items.length < q.max_size := by omega
    have henq := enqueue_accepts q a p now hlt
    show (runEnqueues (enqueue q a p now).2 (now + 1) rest).items.Perm _
    rw [henq]
    have hlen : (sortDesc (q.items ++ [(⟨a, p, now⟩ : QEntry α)])).length =
        q.items.length + 1 := by
      rw [length_sortDesc]
      simp
    have := ih { q with items := sortDesc (q.items ++ [⟨a, p, now⟩]) } (now + 1)
      (by simpa [hlen] using (by omega : q.items.length + 1 + rest.length ≤ q.max_size))
    refine this.trans ?_
    have hperm : (sortDesc (q.items ++ [(⟨a, p, now⟩ : QEntry α)])).Perm
        (q.items ++ [⟨a, p, now⟩]) := perm_sortDesc _
    refine (hperm.append_right _).trans ?_
    rw [List.append_assoc]
    exact List.Perm.refl _

theorem dequeueN_drains {α : Type} (n : Nat) :
    ∀ q : BaseQueue α, q.items.length = n →
      dequeueN q n = q.items.map (fun e => e.item) := by
  induction n with
  | zero =>
    intro q h
    rw [List.length_eq_zero.mp h]
    rfl
  | succ n ih =>
    intro q h
    cases hq : q.items with
    | nil => rw [hq] at h; simp at h
    | cons x xs =>
      have hd : dequeue q = (some x.item, { q with items := xs }) := by
        simp [dequeue, hq]
      have hlen : xs.length = n := by
        rw [hq] at h
        simpa using h
      simp only [dequeueN, hd, hq, List.map_cons]
      exact congrArg (x.item :: ·) (ih { q with items := xs } hlen)

end RMS

/-! ## Queue claims -/

namespace RMS

/-- C3: for every sequence of enqueues that fits within `max_size`
(starting from an empty queue, timestamps increasing across calls), the
queue holds exactly the enqueued entries (as a permutation), its items are
ordered by priority descending with ties broken by enqueue timestamp
ascending (FIFO among equal priorities), and successive `dequeue` calls
return the items in exactly that order. -/
theorem queue_dequeue_order {α : Type} (name : String) (max_size : Nat)
    (ops : List (α × Int)) (now0 : Nat) (h : ops.length ≤ max_size) :
    (runEnqueues (initQueue α name max_size) now0 ops).items.Pairwise entOrder ∧
    (runEnqueues (initQueue α name max_size) now0 ops).items.Perm (opEntries now0 ops) ∧
    dequeueN (runEnqueues (initQueue α name max_size) now0 ops)
        (runEnqueues (initQueue α name max_size) now0 ops).items.length =
      (runEnqueues (initQueue α name max_size) now0 ops).items.map (fun e => e.item) := by
  have hinv := runEnqueues_inv ops (initQueue α name max_size) now0
    ⟨List.Pairwise.nil, List.Pairwise.nil, by simp [initQueue]⟩
  refine ⟨?_, ?_, dequeueN_drains _ _ rfl⟩
  · refine (hinv.1.and hinv.2.1).imp ?_
    intro a b hab
    rcases lt_or_eq_of_le hab.1 with hlt | heq
    · exact Or.inl hlt
    · exact Or.inr ⟨heq.symm, hab.2 heq.symm⟩
  · have := runEnqueues_perm ops (initQueue α name max_size) now0
      (by simpa [initQueue] using h)
    simpa [initQueue] using this

/-- Witness for C3: priorities [3, 1, 2, 1] on items 10, 20, 30, 40;
dequeue order is 10 (priority 3), 30 (priority 2), then 20 before 40
(equal priority 1, FIFO). -/
theorem queue_dequeue_order_witness :
    dequeueN (runEnqueues (initQueue Nat "orders" 4) 0 [(10, 3), (20, 1), (30, 2), (40, 1)]) 4 =
      [10, 30, 20, 40] ∧
    (runEnqueues (initQueue Nat "orders" 4) 0
        [(10, 3), (20, 1), (30, 2), (40, 1)]).items.Pairwise entOrder ∧
    dequeueN (runEnqueues (initQueue Nat "orders" 4) 0 [(10, 3), (20, 1), (30, 2), (40, 1)])
        (runEnqueues (initQueue Nat "orders" 4) 0
          [(10, 3), (20, 1), (30, 2), (40, 1)]).items.length =
      (runEnqueues (initQueue Nat "orders" 4) 0
          [(10, 3), (20, 1), (30, 2), (40, 1)]).items.map (fun e => e.item) := by
  have hq := @queue_dequeue_order Nat "orders" 4 [(10, 3), (20, 1), (30, 2), (40, 1)] 0
    (by decide)
  exact ⟨by decide, hq.1, hq.2.2⟩

/-- C7: an `enqueue` on a queue whose item count has reached `max_size` is
rejected: it returns `False` and leaves the queue exactly unchanged (the
new item is not inserted and nothing is evicted). -/
theorem enqueue_full_rejected {α : Type} (q : BaseQueue α) (a : α) (p : Int) (now : Nat)
    (h : q.items.length = q.max_size) :
    enqueue q a p now = (false, q) := by
  unfold enqueue
  rw [if_pos (le_of_eq h.symm)]


/-- Witness for C7: a third enqueue on the full two-slot queue is refused
and the contents stay exactly the first two items. -/
theorem enqueue_full_rejected_witness :
    enqueue c7queue 3 9 2 = (false, c7queue) :=
  enqueue_full_rejected c7queue 3 9 2 rfl

end RMS

/-! ## Retry lemmas -/

namespace RMS

theorem retryAux_nil {E A : Type} (op : Nat → Except E A) (total : Nat)
    (d bf : ℚ) (last : Option E) :
    retryAux op total d bf [] last =
      (match last with
       | some e => .err e
       | none => .raiseNone, 0, []) := rfl

theorem retryAux_cons_ok {E A : Type} (op : Nat → Except E A) (total : Nat)
    (d bf : ℚ) (attempt : Nat) (rest : List Nat) (last : Option E) (v : A)
    (h : op attempt = .ok v) :
    retryAux op total d bf (attempt :: rest) last = (.ok v, 1, []) := by
  simp [retryAux, h]

theorem retryAux_cons_err_sleep {E A : Type} (op : Nat → Except E A) (total : Nat)
    (d bf : ℚ) (attempt : Nat) (rest : List Nat) (last : Option E) (e : E)
    (h : op attempt = .error e) (hlt : attempt < total - 1) :
    retryAux op total d bf (attempt :: rest) last =
      ((retryAux op total d bf rest (some e)).1,
       (retryAux op total d bf rest (some e)).2.1 + 1,
       d * bf ^ attempt :: (retryAux op total d bf rest (some e)).2.2) := by
  simp [retryAux, h, hlt]

theorem retryAux_cons_err_final {E A : Type} (op : Nat → Except E A) (total : Nat)
    (d bf : ℚ) (attempt : Nat) (rest : List Nat) (last : Option E) (e : E)
    (h : op attempt = .error e) (hlt : ¬ attempt < total - 1) :
    retryAux op total d bf (attempt :: rest) last =
      ((retryAux op total d bf rest (some e)).1,
       (retryAux op total d bf rest (some e)).2.1 + 1,
       (retryAux op total d bf rest (some e)).2.2) := by
  simp [retryAux, h, hlt]

theorem retryAux_count_le {E A : Type} (op : Nat → Except E A) (total : Nat)
    (d bf : ℚ) (l : List Nat) :
    ∀ last : Option E, (retryAux op total d bf l last).2.1 ≤ l.length := by
  induction l with
  | nil => intro last; simp [retryAux_nil]
  | cons attempt rest ih =>
    intro last
    cases hop : op attempt with
    | ok v =>
      rw [retryAux_cons_ok op total d bf attempt rest last v hop]
      simp
    | error e =>
      by_cases hlt : attempt < total - 1
      · rw [retryAux_cons_err_sleep op total d bf attempt rest last e hop hlt]
        simpa using ih (some e)
      · rw [retryAux_cons_err_final op total d bf attempt rest last e hop hlt]
        simpa using ih (some e)

theorem retryAux_success {E A : Type} (op : Nat → Except E A) (total : Nat)
    (d bf : ℚ) (j : Nat) (v : A) (hok : op j = .ok v) :
    ∀ (n a : Nat) (last : Option E), a ≤ j → j < a + n → a + n ≤ total →
      (∀ i, a ≤ i → i < j → ∃ e, op i = .error e) →
      retryAux op total d bf (List.range' a n) last =
        (.ok v, j - a + 1, (List.range' a (j - a)).map (fun i => d * bf ^ i)) := by
  intro n
  induction n with
  | zero => intro a last h1 h2 h3 herr; omega
  | succ n ih =>
    intro a last h1 h2 h3 herr
    rw [List.range'_succ]
    by_cases haj : a = j
    · subst haj
      rw [retryAux_cons_ok op total d bf a (List.range' (a + 1) n) last v hok]
      simp
    · have haj2 : a < j := lt_of_le_of_ne h1 haj
      obtain ⟨e, he⟩ := herr a le_rfl haj2
      have hlt : a < total - 1 := by omega
      rw [retryAux_cons_err_sleep op total d bf a (List.range' (a + 1) n) last e he hlt]
      have hr := ih (a + 1) (some e) (by omega) (by omega) (by omega)
        (fun i hi1 hi2 => herr i (by omega) hi2)
      rw [hr]
      have h4 : j - a = j - (a + 1) + 1 := by omega
      rw [h4, List.range'_succ, List.map_cons]

theorem retryAux_allfail {E A : Type} (op : Nat → Except E A) (total : Nat)
    (d bf : ℚ) (f : Nat → E) :
    ∀ (n a : Nat) (last : Option E), 1 ≤ n → a + n = total →
      (∀ i, a ≤ i → i < a + n → op i = .error (f i)) →
      retryAux op total d bf (List.range' a n) last =
        (.err (f (total - 1)), n, (List.range' a (n - 1)).map (fun i => d * bf ^ i)) := by
  intro n
  induction n with
  | zero => intro a last h1; omega
  | succ n ih =>
    intro a last h1 h2 herr
    rw [List.range'_succ]
    have hea : op a = .error (f a) := herr a le_rfl (by omega)
    cases n with
    | zero =>
      have hnot : ¬ a < total - 1 := by omega
      rw [retryAux_cons_err_final op total d bf a (List.range' (a + 1) 0) last (f a) hea hnot]
      have ha : a = total - 1 := by omega
      simp [retryAux_nil, ha]
    | succ m =>
      have hlt : a < total - 1 := by omega
      rw [retryAux_cons_err_sleep op total d bf a (List.range' (a + 1) (m + 1)) last (f a)
        hea hlt]
      have hr := ih (a + 1) (some (f a)) (by omega) (by omega)
        (fun i hi1 hi2 => herr i (by omega) (by omega))
      rw [hr]
      simp only [Nat.add_sub_cancel, List.range'_succ, List.map_cons]

theorem retryAux_provenance {E A : Type} (op : Nat → Except E A) (total : Nat)
    (d bf : ℚ) (l : List Nat) :
    ∀ last : Option E,
      ((retryAux op total d bf l last).1 = .raiseNone → l = [] ∧ last = none) ∧
      (∀ v, (retryAux op total d bf l last).1 = .ok v → ∃ j ∈ l, op j = .ok v) ∧
      (∀ e, (retryAux op total d bf l last).1 = .err e →
        (∃ j ∈ l, op j = .error e) ∨ last = some e) := by
  induction l with
  | nil =>
    intro last
    cases last with
    | none =>
      refine ⟨fun _ => ⟨rfl, rfl⟩, ?_, ?_⟩ <;> intro x h <;> simp [retryAux_nil] at h
    | some e =>
      refine ⟨?_, ?_, ?_⟩
      · intro h; simp [retryAux_nil] at h
      · intro v h; simp [retryAux_nil] at h
      · intro e2 h
        simp only [retryAux_nil] at h
        right
        cases h
        rfl
  | cons attempt rest ih =>
    intro last
    cases hop : op attempt with
    | ok v =>
      rw [retryAux_cons_ok op total d bf attempt rest last v hop]
      refine ⟨?_, ?_, ?_⟩
      · intro h; cases h
      · intro v2 h
        cases h
        exact ⟨attempt, List.mem_cons_self attempt rest, hop⟩
      · intro e h; cases h
    | error e =>
      have hres : (retryAux op total d bf (attempt :: rest) last).1 =
          (retryAux op total d bf rest (some e)).1 := by
        by_cases hlt : attempt < total - 1
        · rw [retryAux_cons_err_sleep op total d bf attempt rest last e hop hlt]
        · rw [retryAux_cons_err_final op total d bf attempt rest last e hop hlt]
      rw [hres]
      refine ⟨?_, ?_, ?_⟩
      · intro h
        exact absurd ((ih (some e)).1 h).2 (by simp)
      · intro v h
        obtain ⟨j, hj, hopj⟩ := (ih (some e)).2.1 v h
        exact ⟨j, List.mem_cons_of_mem attempt hj, hopj⟩
      · intro e2 h
        rcases (ih (some e)).2.2 e2 h with ⟨j, hj, hopj⟩ | heq
        · exact Or.inl ⟨j, List.mem_cons_of_mem attempt hj, hopj⟩
        · left
          refine ⟨attempt, List.mem_cons_self attempt rest, ?_⟩
          cases heq
          exact hop

end RMS

/-! ## Retry claims -/

namespace RMS

/-- C5: with `max_attempts = n ≥ 1`, `execute_with_retry` invokes the
operation at most `n` times; if the operation fails on 0-based attempts
`0..j-1` and succeeds on attempt `j < n`, it is invoked exactly `j + 1`
times, the success value is returned, and the sleeps performed are exactly
`delay * backoff_factor ^ i` for each failed attempt `i < j` (between
attempts only — never after the returning attempt); if all `n` attempts
fail, the error of the *last* attempt is propagated after exactly `n`
invocations, with sleeps after attempts `0..n-2` but none after the last. -/
theorem execute_with_retry_spec {E A : Type} (r : BaseRetry) (op : Nat → Except E A)
    (hn : 1 ≤ r.max_attempts) :
    (execute_with_retry r op).2.1 ≤ r.max_attempts ∧
    (∀ j v, j < r.max_attempts → op j = .ok v →
      (∀ i, i < j → ∃ e, op i = .error e) →
      execute_with_retry r op =
        (.ok v, j + 1, (List.range j).map (fun i => r.delay * r.backoff_factor ^ i))) ∧
    (∀ f : Nat → E, (∀ i, i < r.max_attempts → op i = .error (f i)) →
      execute_with_retry r op =
        (.err (f (r.max_attempts - 1)), r.max_attempts,
         (List.range (r.max_attempts - 1)).map (fun i => r.delay * r.backoff_factor ^ i))) := by
  unfold execute_with_retry
  refine ⟨?_, ?_, ?_⟩
  · have := retryAux_count_le op r.max_attempts r.delay r.backoff_factor
      (List.range r.max_attempts) none
    simpa using this
  · intro j v hj hok herr
    rw [List.range_eq_range']
    have := retryAux_success op r.max_attempts r.delay r.backoff_factor j v hok
      r.max_attempts 0 none (Nat.zero_le j) (by omega) (by omega)
      (fun i _ hi2 => herr i hi2)
    rw [this, Nat.sub_zero, ← List.range_eq_range']
  · intro f herr
    rw [List.range_eq_range']
    have := retryAux_allfail op r.max_attempts r.delay r.backoff_factor f
      r.max_attempts 0 none (by omega) (by omega)
      (fun i _ hi2 => herr i (by omega))
    rw [this, ← List.range_eq_range']



/-- Witness for C5: the op failing twice then succeeding on the third
attempt is invoked exactly 3 times, returns 42, and sleeps twice
(`1 * 2 ^ 0` and `1 * 2 ^ 1`), never after the successful attempt. -/
theorem execute_with_retry_spec_witness :
    execute_with_retry c5retry c5op =
      (.ok 42, 2 + 1, (List.range 2).map (fun i => c5retry.delay * c5retry.backoff_factor ^ i)) :=
  (execute_with_retry_spec c5retry c5op (by decide)).2.1 2 42 (by decide) rfl
    (fun i hi => ⟨i, by simp [c5op, hi]⟩)

/-- C10: under the precondition enforced by `validate_config`
(`max_attempts > 0` among others), `execute_with_retry` never reaches the
terminal re-raise with an unset (`None`) last exception: its result is a
value produced by some invocation of the operation, or an exception raised
by some invocation of the operation. -/
theorem execute_with_retry_safe {E A : Type} (r : BaseRetry) (op : Nat → Except E A)
    (hv : validate_config r = true) :
    (execute_with_retry r op).1 ≠ .raiseNone ∧
    ((∃ j, j < r.max_attempts ∧ ∃ v, op j = .ok v ∧ (execute_with_retry r op).1 = .ok v) ∨
     (∃ j, j < r.max_attempts ∧ ∃ e, op j = .error e ∧
       (execute_with_retry r op).1 = .err e)) := by
  have hn : 0 < r.max_attempts := by
    simp only [validate_config, Bool.and_eq_true, decide_eq_true_eq] at hv
    exact hv.1.1
  have hprov := retryAux_provenance op r.max_attempts r.delay r.backoff_factor
    (List.range r.max_attempts) none
  unfold execute_with_retry
  cases hres : (retryAux op r.max_attempts r.delay r.backoff_factor
      (List.range r.max_attempts) none).1 with
  | ok v =>
    refine ⟨by simp [hres], Or.inl ?_⟩
    obtain ⟨j, hj, hopj⟩ := hprov.2.1 v hres
    exact ⟨j, List.mem_range.mp hj, v, hopj, rfl⟩
  | err e =>
    refine ⟨by simp [hres], Or.inr ?_⟩
    rcases hprov.2.2 e hres with ⟨j, hj, hopj⟩ | heq
    · exact ⟨j, List.mem_range.mp hj, e, hopj, rfl⟩
    · cases heq
  | raiseNone =>
    have := (hprov.1 hres).1
    rw [List.range_eq_nil] at this
    omega



/-- Witness for C10: with a valid configuration the faulty
`raise None` outcome is impossible even when every attempt fails. -/
theorem execute_with_retry_safe_witness :
    (execute_with_retry c10retry c10op).1 ≠ .raiseNone :=
  (execute_with_retry_safe c10retry c10op (by decide)).1

end RMS
